import Mathlib

/-!
# Verification development for the `get_data` repository

Shallow embedding of the parts of the repository that the specification's
claims are about:

* `src/funcs/ecos.py` — `EcosAPI.parse_time`, the multi-granularity
  time-token parser (regex match + `pd.Timestamp` construction);
* `src/getData/krx.py` — `Krx.build_ticker_periods` (interval
  reconstruction), `Krx.compress_periods` (period compression),
  `Krx.get_index_deposit` (membership diff construction) and the masking
  step of `Krx.get_combined_ohlcv`;
* `src/processData/DataProcessUtils.py` — `safe_div`;
* `src/processData/factorComputing.py` — `cs_zscore` and
  `compute_factors`.

Conventions used throughout:

* A Python exception is modelled by `Option.none` (respectively by a
  dedicated constructor) in the result type of the embedded function.
* Calendar dates of the KRX component are modelled as naturals; only
  their linear order matters to the embedded code (`pd.to_datetime` on
  `YYYYMMDD` strings is strictly monotone).
* `pandas` float semantics (NaN propagation, the `Timestamp` validity
  and nanosecond-range checks, sample standard deviation with
  `ddof = 1`) are modelled explicitly where the claims depend on them.
-/

namespace EcosAPI

/-- A `pandas.Timestamp` at day granularity, as produced by
`pd.Timestamp(year, month, day)` in `EcosAPI.parse_time`. -/
structure Timestamp where
  y : Nat
  m : Nat
  d : Nat
deriving DecidableEq, Repr

/-- Result of `EcosAPI.parse_time`: either the not-a-time sentinel
`pd.NaT` or a parsed timestamp. -/
inductive PTime where
  | NaT : PTime
  | ts : Timestamp → PTime
deriving DecidableEq, Repr

/-- Gregorian leap-year test, as used by `datetime`/`pandas` when
validating the `day` argument of `pd.Timestamp`. -/
def isLeap (y : Nat) : Bool :=
  y % 4 = 0 && (y % 100 ≠ 0 || y % 400 = 0)

/-- Number of days of month `m` of year `y` (Gregorian calendar). -/
def daysInMonth (y m : Nat) : Nat :=
  if m = 2 then (if isLeap y then 29 else 28)
  else if m = 4 ∨ m = 6 ∨ m = 9 ∨ m = 11 then 30
  else 31

/-- `(y, m, d)` is on or after 1677-09-22, the first full calendar day
representable by a nanosecond `pandas.Timestamp`
(`pd.Timestamp.min` is 1677-09-21 00:12:43.145224193, so constructing
the midnight timestamp 1677-09-21 already raises). -/
def tsMinOk (y m d : Nat) : Bool :=
  1677 < y || (y = 1677 && (9 < m || (m = 9 && 22 ≤ d)))

/-- `(y, m, d)` is on or before 2262-04-11, the last calendar day whose
midnight timestamp is representable (`pd.Timestamp.max` is
2262-04-11 23:47:16.854775807). -/
def tsMaxOk (y m d : Nat) : Bool :=
  y < 2262 || (y = 2262 && (m < 4 || (m = 4 && d ≤ 11)))

/-- `pd.Timestamp(y, m, d)`: `some` a timestamp when the arguments name
a valid in-range calendar date, `none` when the constructor raises
(`ValueError` for an invalid month/day, `OutOfBoundsDatetime` outside
the nanosecond range). -/
def mkTimestamp (y m d : Nat) : Option Timestamp :=
  if 1 ≤ m && m ≤ 12 && 1 ≤ d && d ≤ daysInMonth y m
      && tsMinOk y m d && tsMaxOk y m d then
    some ⟨y, m, d⟩
  else
    none

/-- The six token shapes recognised by the anchored regex of
`EcosAPI.parse_time`, with their captured numeric groups. -/
inductive Tok where
  | year : Nat → Tok
  | month : Nat → Nat → Tok
  | day : Nat → Nat → Nat → Tok
  | quarter : Nat → Nat → Tok
  | half : Nat → Nat → Tok
  | semimonth : Nat → Nat → Nat → Tok
deriving DecidableEq, Repr

/-- Numeric value of a decimal digit character. -/
def dval (c : Char) : Nat := c.toNat - 48

/-- Value of two digit characters read as a decimal number. -/
def num2 (a b : Char) : Nat := dval a * 10 + dval b

/-- Value of four digit characters read as a decimal number. -/
def num4 (a b c d : Char) : Nat := (num2 a b) * 100 + num2 c d

/-- Python's `$` anchor also matches just before one trailing newline,
so `re.match(pattern, s)` with an `^...$` pattern accepts `s` with a
single final `'\n'` stripped. -/
def stripNL (l : List Char) : List Char :=
  match l.getLast? with
  | some c => if c = '\n' then l.dropLast else l
  | none => l

/-- The anchored regex of `EcosAPI.parse_time`
`^(?P<y>\d{4})((?P<m>\d{2})((?P<d>\d{2})|S(?P<sm>[12]))?|Q(?P<q>[1-4])|S(?P<s>[12]))?$`
on an input without trailing newline.  Matches are possible exactly at
lengths 4, 6 and 8, and the alternatives are distinguished by the first
character after the four-digit year, so the match is deterministic. -/
def matchCore (l : List Char) : Option Tok :=
  match l with
  | [a, b, c, d] =>
      if a.isDigit && b.isDigit && c.isDigit && d.isDigit then
        some (.year (num4 a b c d))
      else none
  | [a, b, c, d, e, f] =>
      if a.isDigit && b.isDigit && c.isDigit && d.isDigit then
        if e.isDigit && f.isDigit then
          some (.month (num4 a b c d) (num2 e f))
        else if e = 'Q' && ('1' ≤ f && f ≤ '4') then
          some (.quarter (num4 a b c d) (dval f))
        else if e = 'S' && (f = '1' || f = '2') then
          some (.half (num4 a b c d) (dval f))
        else none
      else none
  | [a, b, c, d, e, f, g, h] =>
      if a.isDigit && b.isDigit && c.isDigit && d.isDigit
          && e.isDigit && f.isDigit then
        if g.isDigit && h.isDigit then
          some (.day (num4 a b c d) (num2 e f) (num2 g h))
        else if g = 'S' && (h = '1' || h = '2') then
          some (.semimonth (num4 a b c d) (num2 e f) (dval h))
        else none
      else none
  | _ => none

/-- Full-string anchored match of the `parse_time` regex on a token. -/
def matchTime (s : String) : Option Tok :=
  matchCore (stripNL s.data)

/-- The `pd.Timestamp` construction performed by `parse_time` on the
captured groups, in the source's branch order (`q`, `s`, `sm`, `d`,
`m`, then year only).  `none` models a raised exception. -/
def tokToTime : Tok → Option Timestamp
  | .year y => mkTimestamp y 1 1
  | .month y m => mkTimestamp y m 1
  | .day y m d => mkTimestamp y m d
  | .quarter y q => mkTimestamp y ((q - 1) * 3 + 1) 1
  | .half y s => mkTimestamp y ((s - 1) * 6 + 1) 1
  | .semimonth y m sm => mkTimestamp y m (if sm = 1 then 1 else 16)

/-- `EcosAPI.parse_time`.  `some PTime.NaT` models returning `pd.NaT`,
`some (PTime.ts t)` models returning the timestamp `t`, and `none`
models an exception escaping the function (raised by the
`pd.Timestamp` constructor). -/
def parse_time (val : String) : Option PTime :=
  match matchTime val with
  | none => some .NaT
  | some t => (tokToTime t).map .ts

end EcosAPI

namespace Krx

/-- A row of the membership-event table consumed by
`Krx.build_ticker_periods` (columns `date`, `codes`, `added`,
`removed`); entity identifiers and dates are modelled as naturals. -/
structure MEvent where
  date : Nat
  codes : List Nat
  added : List Nat
  removed : List Nat
deriving DecidableEq, Repr

/-- A row of the active-period table produced by
`Krx.build_ticker_periods` (columns `code`, `start`, `end`); the
source's `end` column is named `stop` here because `end` is a Lean
keyword. -/
structure Period where
  code : Nat
  start : Nat
  stop : Nat
deriving DecidableEq, Repr

/-- The `active` dictionary of `build_ticker_periods`, modelled as an
insertion-ordered association list from entity code to entry date. -/
abbrev AList := List (Nat × Nat)

/-- `active[code] = date`: Python dict assignment keeps the position of
an existing key and appends a fresh key at the end. -/
def dictInsert (a : AList) (k v : Nat) : AList :=
  if a.any (fun p => p.1 = k) then
    a.map (fun p => if p.1 = k then (k, v) else p)
  else a ++ [(k, v)]

/-- `active[code]` lookup (`code in active` plus read). -/
def dictGet (a : AList) (k : Nat) : Option Nat :=
  (a.find? (fun p => p.1 = k)).map (·.2)

/-- `del active[code]`. -/
def dictErase (a : AList) (k : Nat) : AList :=
  a.filter (fun p => p.1 ≠ k)

/-- The `for code in row["added"]` loop of one event. -/
def procAdded (a : AList) (d : Nat) (added : List Nat) : AList :=
  added.foldl (fun a c => dictInsert a c d) a

/-- The `for code in row["removed"]` loop of one event: a removal of a
code present in `active` emits a period and deletes the entry, a
removal of an absent code is silently dropped. -/
def procRemoved (st : AList × List Period) (d : Nat) (removed : List Nat) :
    AList × List Period :=
  removed.foldl
    (fun st c =>
      match dictGet st.1 c with
      | some s => (dictErase st.1 c, st.2 ++ [⟨c, s, d⟩])
      | none => st)
    st

/-- Processing of one row of the event table inside the
`for date, row in df.iterrows()` loop. -/
def stepEvent (st : AList × List Period) (e : MEvent) : AList × List Period :=
  procRemoved (procAdded st.1 e.date e.added, st.2) e.date e.removed

/-- Comparison key of `df.sort_values("date")`. -/
def dateLe (a b : MEvent) : Prop := a.date ≤ b.date

instance : DecidableRel dateLe := fun a b => Nat.decLe a.date b.date

instance : IsTotal MEvent dateLe := ⟨fun a b => Nat.le_total a.date b.date⟩

instance : IsTrans MEvent dateLe := ⟨fun _ _ _ => Nat.le_trans⟩

/-- `df.sort_values("date")` / `df.sort_index()` on the event table.
`sort_values` uses an unspecified comparison sort (quicksort by
default); any sort by the same key produces the same table whenever
the keys are distinct, which holds in every claim below. -/
def sortByDate (es : List MEvent) : List MEvent :=
  es.insertionSort dateLe

/-- The `["code", "start"]` lexicographic key of the final
`sort_values(["code", "start"])`. -/
def periodLe (p q : Period) : Prop :=
  p.code < q.code ∨ (p.code = q.code ∧ p.start ≤ q.start)

instance : DecidableRel periodLe := fun _ _ => instDecidableOr

instance : IsTotal Period periodLe := by
  constructor
  intro a b
  rcases Nat.lt_trichotomy a.code b.code with h | h | h
  · exact Or.inl (Or.inl h)
  · rcases Nat.le_total a.start b.start with h' | h'
    · exact Or.inl (Or.inr ⟨h, h'⟩)
    · exact Or.inr (Or.inr ⟨h.symm, h'⟩)
  · exact Or.inr (Or.inl h)

instance : IsTrans Period periodLe := by
  constructor
  intro a b c hab hbc
  rcases hab with h | ⟨h1, h2⟩
  · rcases hbc with h' | ⟨h1', _⟩
    · exact Or.inl (h.trans h')
    · exact Or.inl (h1' ▸ h)
  · rcases hbc with h' | ⟨h1', h2'⟩
    · exact Or.inl (h1 ▸ h')
    · exact Or.inr ⟨h1.trans h1', h2.trans h2'⟩

/-- `df.sort_values(["code", "start"])` on the period table. -/
def sortPeriods (ps : List Period) : List Period :=
  ps.insertionSort periodLe

/-- `Krx.build_ticker_periods`.  `none` models a raised exception: for
an empty event table `df.index[-1]` raises `IndexError`, and when no
period at all is produced `pd.DataFrame([]).sort_values(["code",
"start"])` raises `KeyError` (the empty frame has no columns). -/
def build_ticker_periods (events : List MEvent) : Option (List Period) :=
  let sorted := sortByDate events
  match sorted.getLast? with
  | none => none
  | some lastEv =>
      let st := sorted.foldl stepEvent ([], [])
      let results := st.2 ++ st.1.map (fun cs => ⟨cs.1, cs.2, lastEv.date⟩)
      if results = [] then none else some (sortPeriods results)

/-- The distinct codes of a period table in ascending order: the group
keys of `groupby("code")` (which sorts its keys; the trailing stable
`sort_values("code")` keeps that order). -/
def codesOf (ps : List Period) : List Nat :=
  ((ps.map Period.code).dedup).insertionSort (· ≤ ·)

/-- Minimum of a nonempty list of naturals (`agg("min")` on a group). -/
def listMin : List Nat → Nat
  | [] => 0
  | x :: xs => xs.foldl Nat.min x

/-- Maximum of a nonempty list of naturals (`agg("max")` on a group). -/
def listMax : List Nat → Nat
  | [] => 0
  | x :: xs => xs.foldl Nat.max x

/-- `Krx.compress_periods`: group the period rows by `code` and
aggregate the minimal `start` and maximal `end` per group. -/
def compress_periods (ps : List Period) : List Period :=
  (codesOf ps).map fun c =>
    ⟨c, listMin ((ps.filter (fun p => p.code = c)).map Period.start),
        listMax ((ps.filter (fun p => p.code = c)).map Period.stop)⟩

/-- Python's `sorted(...)` on a set of codes: the set is modelled by
any list of its elements, so sorting also deduplicates. -/
def sortedSet (l : List Nat) : List Nat :=
  l.dedup.insertionSort (· ≤ ·)

/-- Python set equality of two snapshots given as element lists. -/
def setEq (a b : List Nat) : Bool :=
  a.all (· ∈ b) && b.all (· ∈ a)

/-- Python set difference `a - b` of two snapshots (as element
lists). -/
def setDiff (a b : List Nat) : List Nat :=
  a.filter (fun c => ¬ c ∈ b)

/-- The per-date snapshot state of `Krx.get_index_deposit`:
`prev_set` (`none` before the first usable snapshot) and the `records`
list accumulated so far. -/
abbrev SnapState := Option (List Nat) × List MEvent

/-- One iteration of the `for d in dates` loop of
`Krx.get_index_deposit`.  `fetch d = none` models the snapshot query
raising (the date is skipped); an empty snapshot is likewise skipped;
the first usable snapshot is the genesis event; an unchanged snapshot
emits no event; otherwise a diff event is emitted with
`added = cur - prev` and `removed = prev - cur`. -/
def snapStep (fetch : Nat → Option (List Nat)) (st : SnapState) (d : Nat) :
    SnapState :=
  match fetch d with
  | none => st
  | some cur =>
      if cur = [] then st
      else
        match st.1 with
        | none => (some cur, st.2 ++ [⟨d, sortedSet cur, sortedSet cur, []⟩])
        | some p =>
            if setEq cur p then st
            else (some cur,
              st.2 ++ [⟨d, sortedSet cur, sortedSet (setDiff cur p),
                sortedSet (setDiff p cur)⟩])

/-- The whole snapshot loop of `Krx.get_index_deposit` over the queried
dates. -/
def rawState (fetch : Nat → Option (List Nat)) (dates : List Nat) :
    SnapState :=
  dates.foldl (snapStep fetch) (none, [])

/-- The trailing-event append of `Krx.get_index_deposit`: when records
exist and the last record's date differs from the requested end date,
one event dated `endD` with the last known full codes set and empty
`added`/`removed` is appended. -/
def addTrailing (st : SnapState) (endD : Nat) : List MEvent :=
  match st.2.getLast? with
  | none => st.2
  | some lastRec =>
      if lastRec.date = endD then st.2
      else st.2 ++ [⟨endD, sortedSet (st.1.getD []), [], []⟩]

/-- `Krx.get_index_deposit`, parameterized by the snapshot query
`fetch` (the external `stock.get_index_portfolio_deposit_file` call,
`none` = the call raised, and the returned member list is read as a
set) and the queried business dates.  With no records at all the
source returns an empty frame (modelled `some []`); otherwise it
returns `build_ticker_periods` of the records. -/
def get_index_deposit (fetch : Nat → Option (List Nat)) (dates : List Nat)
    (endD : Nat) : Option (List Period) :=
  let st := rawState fetch dates
  let recs := addTrailing st endD
  if recs = [] then some [] else build_ticker_periods recs

/-- `p.start <= d <= p.stop` for some pre-compression period of code
`c`: the `mask |= (ohlcv["date"] >= orig_start) & (ohlcv["date"] <=
orig_end)` accumulation of `Krx.get_combined_ohlcv`. -/
def inPeriods (ps : List Period) (c d : Nat) : Bool :=
  (ps.filter (fun p => p.code = c)).foldl
    (fun acc p => acc || (decide (p.start ≤ d) && decide (d ≤ p.stop))) false

/-- `["date", "code"]` lexicographic key of the final
`sort_values(["date", "code"])` of `get_combined_ohlcv`; an output row
is modelled by its `(date, code)` pair. -/
def rowLe (a b : Nat × Nat) : Prop :=
  a.1 < b.1 ∨ (a.1 = b.1 ∧ a.2 ≤ b.2)

instance : DecidableRel rowLe := fun _ _ => instDecidableOr

/-- `Krx.get_combined_ohlcv`, parameterized by the bulk OHLCV query
`fetch code start stop` returning the dates of the retrieved rows.
Rows are fetched once per compressed period and then masked by the
union of the entity's pre-compression `(orig_start, orig_end)` windows,
both endpoints inclusive. -/
def get_combined_ohlcv (fetch : Nat → Nat → Nat → List Nat)
    (ps : List Period) : List (Nat × Nat) :=
  if ps = [] then []
  else
    ((compress_periods ps).flatMap fun row =>
      ((fetch row.code row.start row.stop).filter
          (fun d => inPeriods ps row.code d)).map
        (fun d => (d, row.code))).insertionSort rowLe

/-- The snapshot oracle of the spec's three-day example: entities
`A = 1`, `B = 2`; snapshot `{A, B}` on day 1 and day 2, `{A}` on
day 3, and no data on any other day. -/
def exFetch : Nat → Option (List Nat) :=
  fun d =>
    if d = 1 then some [1, 2]
    else if d = 2 then some [2, 1]
    else if d = 3 then some [1]
    else none

end Krx

namespace ProcessData

/-- A float value as it occurs in the ratio-factor pipeline: a finite
number (idealized as a rational), `NaN`, `+inf` or `-inf`. -/
inductive Fval where
  | num : ℚ → Fval
  | nan : Fval
  | inf : Fval
  | ninf : Fval
deriving DecidableEq, Repr

/-- IEEE-style elementwise division as performed by `numpy`/`pandas` on
this value domain: `NaN` propagates, division of a finite nonzero
value by zero gives a signed infinity, `0/0` gives `NaN`, division by
an infinity gives zero, and `inf/inf` gives `NaN`. -/
def pyDiv : Fval → Fval → Fval
  | .nan, _ => .nan
  | _, .nan => .nan
  | .inf, .inf => .nan
  | .inf, .ninf => .nan
  | .ninf, .inf => .nan
  | .ninf, .ninf => .nan
  | .inf, .num b => if b < 0 then .ninf else .inf
  | .ninf, .num b => if b < 0 then .inf else .ninf
  | .num _, .inf => .num 0
  | .num _, .ninf => .num 0
  | .num a, .num b =>
      if b = 0 then (if a = 0 then .nan else if a < 0 then .ninf else .inf)
      else .num (a / b)

/-- `denom.replace(0, np.nan)` on one element. -/
def replZero (v : Fval) : Fval :=
  if v = .num 0 then .nan else v

/-- `result.replace([np.inf, -np.inf], np.nan)` on one element. -/
def replInf (v : Fval) : Fval :=
  if v = .inf ∨ v = .ninf then .nan else v

/-- `DataProcessUtils.safe_div` on two aligned series: the denominator
has its zeros replaced by `NaN` before dividing, and infinities in the
quotient are replaced by `NaN` afterwards. -/
def safe_div (numer denom : List Fval) : List Fval :=
  (numer.zip denom).map fun ad => replInf (pyDiv ad.1 (replZero ad.2))

/-- A float with `NaN` modelled as `Option ℝ` (`none` = `NaN`), the
value domain of the z-score pipeline. -/
abbrev RV := Option ℝ

/-- `x.mean()` of a pandas series: `NaN` entries are skipped
(`skipna=True` default) and the mean of an empty series is `NaN`. -/
noncomputable def seriesMean (xs : List RV) : RV :=
  let v := xs.filterMap id
  if v.length = 0 then none else some (v.sum / v.length)

/-- `x.std()` of a pandas series: sample standard deviation with
`ddof = 1` over the non-`NaN` entries; with at most one such entry the
result is `NaN`. -/
noncomputable def seriesStd (xs : List RV) : RV :=
  let v := xs.filterMap id
  if v.length ≤ 1 then none
  else
    some (Real.sqrt
      (((v.map (fun x => (x - v.sum / v.length) ^ 2)).sum) /
        ((v.length : ℝ) - 1)))

/-- One element of `(x - x.mean()) / (x.std() + eps)`: `NaN` in the
element, in the group mean or in the group standard deviation
propagates to `NaN`. -/
noncomputable def zVal (eps : ℝ) (g : List RV) (x : RV) : RV :=
  match x, seriesMean g, seriesStd g with
  | some xv, some mv, some sv => some ((xv - mv) / (sv + eps))
  | _, _, _ => none

/-- `factorComputing.cs_zscore` on one column: group the values by
their row's `Date` key and apply
`lambda x: (x - x.mean()) / (x.std() + eps)` within each group
(`groupby("Date")[col].transform` keeps every row at its position). -/
noncomputable def cs_zscoreCol (eps : ℝ) (dates : List Nat) (xs : List RV) :
    List RV :=
  (dates.zip xs).map fun dx =>
    zVal eps (((dates.zip xs).filter (fun p => p.1 = dx.1)).map Prod.snd) dx.2

/-- A panel table as used by `compute_factors`: the `Date` key column
plus named value columns in their frame order. -/
structure DF where
  dateCol : List Nat
  cols : List (String × List RV)
deriving Inhabited

/-- `df[name]` read access (the empty series for a missing column; the
embedded code only reads columns it has set). -/
def getCol (df : DF) (name : String) : List RV :=
  ((df.cols.find? (fun p => p.1 = name)).map Prod.snd).getD []

/-- `df[name] = col`: overwrite in place when the column exists,
append it at the end of the frame otherwise. -/
def setCol (df : DF) (name : String) (col : List RV) : DF :=
  if df.cols.any (fun p => p.1 = name) then
    ⟨df.dateCol, df.cols.map (fun p => if p.1 = name then (name, col) else p)⟩
  else
    ⟨df.dateCol, df.cols ++ [(name, col)]⟩

/-- `factorComputing.cs_zscore df col` with its default `eps = 1e-8`,
grouping by the `Date` column of the frame. -/
noncomputable def cs_zscore (df : DF) (col : String) : List RV :=
  cs_zscoreCol 1e-8 df.dateCol (getCol df col)

/-- The body of the `for name, func in factor_dict.items()` loop of
`compute_factors`: set the factor column (cast), record its name, and
when `zscore` is on also set and record the `{name}_Z` column computed
from the frame state that already holds the factor column.  The
`float32` cast is the abstract elementwise function `cast`. -/
noncomputable def cfLoop (cast : RV → RV) (zscore : Bool) :
    List (String × (DF → List RV)) → DF × List String → DF × List String
  | [], st => st
  | (name, f) :: rest, st =>
      let df1 := setCol st.1 name ((f st.1).map cast)
      let st1 :=
        if zscore then
          (setCol df1 (name ++ "_Z") ((cs_zscore df1 name).map cast),
            st.2 ++ [name, name ++ "_Z"])
        else (df1, st.2 ++ [name])
      cfLoop cast zscore rest st1

/-- `factorComputing.compute_factors` (with `columns=None`).  The first
component is the caller's frame after the call — the function assigns
its new columns into the frame it was given — and the second is the
returned `df[columns]` selection of exactly the appended columns. -/
noncomputable def compute_factors (cast : RV → RV) (df : DF)
    (factor_dict : List (String × (DF → List RV))) (zscore : Bool) :
    DF × List (String × List RV) :=
  let st := cfLoop cast zscore factor_dict (df, [])
  (st.1, st.2.map (fun n => (n, getCol st.1 n)))

/-- The column names `compute_factors` appends, in append order. -/
def expNames (factor_dict : List (String × (DF → List RV)))
    (zscore : Bool) : List String :=
  factor_dict.flatMap (fun nf =>
    if zscore then [nf.1, nf.1 ++ "_Z"] else [nf.1])

/-- A one-row, one-column example frame with a `Date` key of `0`. -/
def exDF : DF := ⟨[0], [("x", [some 1])]⟩

/-- A single example factor reading back the `x` column. -/
def exFactors : List (String × (DF → List RV)) :=
  [("f", fun df => getCol df "x")]

end ProcessData

section Theorems

open EcosAPI Krx ProcessData

/-- Helper: the snapshot loop of `get_index_deposit` leaves the state
untouched when every snapshot query fails. -/
theorem rawState_all_fail (dates : List Nat) :
    rawState (fun _ => none) dates = (none, []) := by
  have h : ∀ st : SnapState, dates.foldl (snapStep (fun _ => none)) st = st := by
    induction dates with
    | nil => intro st; rfl
    | cons d rest ih =>
        intro st
        simp only [List.foldl_cons]
        have : snapStep (fun _ => none) st d = st := rfl
        rw [this, ih]
  exact h (none, [])

/-- C1, counterexample: the token `"202313"` matches the `YYYYMM`
pattern, and `pd.Timestamp(2023, 13, 1)` raises `ValueError` (month 13
does not exist), so `parse_time` is not total: it throws on this
token rather than returning a timestamp or the sentinel. -/
theorem C1_counterexample :
    parse_time "202313" = none ∧ parse_time "202313" ≠ some PTime.NaT := by
  exact ⟨by decide, by decide⟩

/-- C1, amended: every token that fails the full-string anchored match
yields the `pd.NaT` sentinel without raising, and `parse_time` can
only raise on a token that does match one of the six patterns (with
numeric fields denoting an invalid or out-of-range calendar date). -/
theorem C1_main :
    ∀ s : String,
      (matchTime s = none → parse_time s = some PTime.NaT) ∧
      (parse_time s = none → matchTime s ≠ none) := by
  intro s
  constructor
  · intro h
    simp [parse_time, h]
  · intro h hm
    rw [parse_time, hm] at h
    exact Option.noConfusion h

/-- C1, witness: the non-matching token `"not-a-time!"` indeed yields
the sentinel via `C1_main`. -/
theorem C1_witness :
    matchTime "not-a-time!" = none ∧
      parse_time "not-a-time!" = some PTime.NaT := by
  exact ⟨by decide, (C1_main "not-a-time!").1 (by decide)⟩

/-- C2, counterexample: on an empty event table `build_ticker_periods`
raises (`df.index[-1]` on the empty frame raises `IndexError`),
modelled by `none`; it does not return the empty table. -/
theorem C2_counterexample :
    build_ticker_periods [] = none ∧
      build_ticker_periods [] ≠ some [] := by
  exact ⟨by decide, by decide⟩

/-- C2, amended: `build_ticker_periods` raises on an empty event
sequence; the empty-input-to-empty-output behavior holds one level up,
in `get_index_deposit`, which returns an empty frame without invoking
the reconstruction when no snapshot produced an event. -/
theorem C2_main :
    build_ticker_periods [] = none ∧
      ∀ (dates : List Nat) (endD : Nat),
        get_index_deposit (fun _ => none) dates endD = some [] := by
  refine ⟨by decide, fun dates endD => ?_⟩
  simp [get_index_deposit, rawState_all_fail, addTrailing]

/-- C5: `parse_time` maps every well-formed token to the first
calendar date of the period it denotes — the spec's seven test vectors
hold, and on any token matched as a quarter, half-year or semimonthly
token the constructed date is governed by the formulas
`month = (q-1)*3+1`, `month = (s-1)*6+1` and `day = 1/16`. -/
theorem C5_main :
    parse_time "2023" = some (.ts ⟨2023, 1, 1⟩) ∧
    parse_time "202303" = some (.ts ⟨2023, 3, 1⟩) ∧
    parse_time "20230315" = some (.ts ⟨2023, 3, 15⟩) ∧
    parse_time "2023Q3" = some (.ts ⟨2023, 7, 1⟩) ∧
    parse_time "2023S2" = some (.ts ⟨2023, 7, 1⟩) ∧
    parse_time "202303S2" = some (.ts ⟨2023, 3, 16⟩) ∧
    parse_time "not-a-date" = some .NaT ∧
    (∀ (s : String) (y q : Nat), matchTime s = some (.quarter y q) →
      parse_time s = (mkTimestamp y ((q - 1) * 3 + 1) 1).map .ts) ∧
    (∀ (s : String) (y h2 : Nat), matchTime s = some (.half y h2) →
      parse_time s = (mkTimestamp y ((h2 - 1) * 6 + 1) 1).map .ts) ∧
    (∀ (s : String) (y m sm : Nat), matchTime s = some (.semimonth y m sm) →
      parse_time s = (mkTimestamp y m (if sm = 1 then 1 else 16)).map .ts) := by
  refine ⟨by decide, by decide, by decide, by decide, by decide, by decide,
    by decide, ?_, ?_, ?_⟩
  · intro s y q h
    simp [parse_time, h, tokToTime]
  · intro s y h2 h
    simp [parse_time, h, tokToTime]
  · intro s y m sm h
    simp [parse_time, h, tokToTime]

/-- C5, witness: the quarter formula of `C5_main` instantiated at
the token `"2023Q3"`. -/
theorem C5_witness :
    matchTime "2023Q3" = some (.quarter 2023 3) ∧
      parse_time "2023Q3" =
        (mkTimestamp 2023 ((3 - 1) * 3 + 1) 1).map PTime.ts := by
  exact ⟨by decide, C5_main.2.2.2.2.2.2.2.1 "2023Q3" 2023 3 (by decide)⟩

/-- Helper: `replInf` never returns an infinity. -/
theorem replInf_ne_inf (v : Fval) :
    replInf v ≠ .inf ∧ replInf v ≠ .ninf := by
  unfold replInf
  split
  · exact ⟨Fval.noConfusion, Fval.noConfusion⟩
  · rename_i h
    push_neg at h
    exact h

/-- C8: `safe_div` maps a zero denominator to the `NaN` missing marker
(the denominator's zeros are replaced by `NaN` before dividing), and
no entry of its output is ever an infinity.  (In the source the
`ratio_factor` closure cannot actually reach `safe_div`: it names the
undefined `processUtils`, so calling the factor raises `NameError`;
this theorem is about the intended `DataProcessUtils.safe_div`.) -/
theorem C8_main :
    safe_div [Fval.num 1] [Fval.num 0] = [Fval.nan] ∧
    ∀ (n d : List Fval) (v : Fval), v ∈ safe_div n d →
      v ≠ Fval.inf ∧ v ≠ Fval.ninf := by
  refine ⟨by decide, fun n d v hv => ?_⟩
  unfold safe_div at hv
  obtain ⟨ad, _, rfl⟩ := List.mem_map.mp hv
  exact replInf_ne_inf _

/-- C8, witness: `C8_main` applied to the single `NaN` produced by
`1 / 0`. -/
theorem C8_witness :
    Fval.nan ∈ safe_div [Fval.num 1] [Fval.num 0] ∧
      Fval.nan ≠ Fval.inf ∧ Fval.nan ≠ Fval.ninf := by
  exact ⟨by decide, C8_main.2 [Fval.num 1] [Fval.num 0] Fval.nan (by decide)⟩

/-- Helper: the mean of the series `[1, 2, 3]` is `2`. -/
theorem seriesMean_123 :
    seriesMean [some 1, some 2, some 3] = some 2 := by
  simp only [seriesMean, List.filterMap]
  norm_num

/-- Helper: the sample standard deviation (`ddof = 1`) of the series
`[1, 2, 3]` is `1`. -/
theorem seriesStd_123 :
    seriesStd [some 1, some 2, some 3] = some 1 := by
  simp only [seriesStd, List.filterMap]
  norm_num

/-- C9, counterexample: a date carrying a single observation does not
get a finite z-score: the sample standard deviation of one value is
`NaN` (`ddof = 1`), and `(x - x) / (NaN + eps)` is `NaN` (`none`), not
a finite number. -/
theorem C9_counterexample :
    cs_zscoreCol 1e-8 [0] [some 7] = [none] := by
  simp [cs_zscoreCol, zVal, seriesMean, seriesStd]

/-- C9, amended: the z-score column is computed per date as
`(x − mean) / (std + ε)` with `ε = 1e-8`; on a date holding `[1, 2, 3]`
the z-scores are `(x − 2) / (1 + ε)` and their cross-sectional mean is
exactly `0`; a date with only one observation yields `NaN` (not a
division-by-zero error, but not a finite value either). -/
theorem C9_main :
    (∀ (df : DF) (col : String),
      cs_zscore df col = cs_zscoreCol 1e-8 df.dateCol (getCol df col)) ∧
    cs_zscoreCol 1e-8 [0, 0, 0] [some 1, some 2, some 3] =
      [some ((1 - 2) / (1 + 1e-8)), some ((2 - 2) / (1 + 1e-8)),
        some ((3 - 2) / (1 + 1e-8))] ∧
    seriesMean (cs_zscoreCol 1e-8 [0, 0, 0] [some 1, some 2, some 3]) =
      some 0 ∧
    cs_zscoreCol 1e-8 [0] [some 7] = [none] := by
  have hz : cs_zscoreCol 1e-8 [0, 0, 0] [some 1, some 2, some 3] =
      [some ((1 - 2) / (1 + 1e-8)), some ((2 - 2) / (1 + 1e-8)),
        some ((3 - 2) / (1 + 1e-8))] := by
    simp only [cs_zscoreCol, List.zip_cons_cons, List.zip_nil_right,
      List.map_cons, List.map_nil, List.filter, decide_True, zVal,
      seriesMean_123, seriesStd_123]
  refine ⟨fun df col => rfl, hz, ?_, ?_⟩
  · rw [hz]
    simp only [seriesMean, List.filterMap]
    norm_num
  · simp [cs_zscoreCol, zVal, seriesMean, seriesStd]

end Theorems

section C3dev

open Krx

/-- Helper: membership after a dict assignment. -/
theorem dictInsert_mem {a : AList} {k v : Nat} {cs : Nat × Nat}
    (h : cs ∈ dictInsert a k v) : cs ∈ a ∨ cs = (k, v) := by
  unfold dictInsert at h
  split at h
  · obtain ⟨p, hp, hcs⟩ := List.mem_map.mp h
    by_cases hk : p.1 = k
    · rw [if_pos hk] at hcs
      exact Or.inr hcs.symm
    · rw [if_neg hk] at hcs
      exact Or.inl (hcs ▸ hp)
  · rcases List.mem_append.mp h with h' | h'
    · exact Or.inl h'
    · simp only [List.mem_singleton] at h'
      exact Or.inr h'

/-- Helper: membership after the `added` loop of one event. -/
theorem procAdded_mem {added : List Nat} {a : AList} {d : Nat}
    {cs : Nat × Nat} (h : cs ∈ procAdded a d added) : cs ∈ a ∨ cs.2 = d := by
  induction added generalizing a with
  | nil => exact Or.inl h
  | cons c rest ih =>
      have h' : cs ∈ procAdded (dictInsert a c d) d rest := h
      rcases ih h' with h'' | h''
      · rcases dictInsert_mem h'' with h3 | h3
        · exact Or.inl h3
        · exact Or.inr (by rw [h3])
      · exact Or.inr h''

/-- Helper: a successful dict lookup is a membership. -/
theorem dictGet_mem {a : AList} {k s : Nat} (h : dictGet a k = some s) :
    (k, s) ∈ a := by
  unfold dictGet at h
  obtain ⟨p, hp, hps⟩ := Option.map_eq_some'.mp h
  have hmem := List.mem_of_find?_eq_some hp
  have hkey : p.1 = k := by
    have := List.find?_some hp
    simpa using this
  have : p = (k, s) := Prod.ext hkey hps
  exact this ▸ hmem

/-- Helper: erasure only removes entries. -/
theorem dictErase_subset {a : AList} {k : Nat} {cs : Nat × Nat}
    (h : cs ∈ dictErase a k) : cs ∈ a :=
  List.mem_of_mem_filter h

/-- Helper: after the `removed` loop, active entries come from the
incoming active dict and new periods either pre-existed or are closed
at the event date with a start recorded in the incoming dict. -/
theorem procRemoved_spec (removed : List Nat) (st : AList × List Period)
    (d : Nat) :
    (∀ cs ∈ (procRemoved st d removed).1, cs ∈ st.1) ∧
    (∀ p ∈ (procRemoved st d removed).2,
      p ∈ st.2 ∨ (p.stop = d ∧ (p.code, p.start) ∈ st.1)) := by
  induction removed generalizing st with
  | nil => exact ⟨fun cs h => h, fun p h => Or.inl h⟩
  | cons c rest ih =>
      cases hg : dictGet st.1 c with
      | none =>
          have heq : procRemoved st d (c :: rest) = procRemoved st d rest := by
            simp only [procRemoved, List.foldl_cons, hg]
          rw [heq]
          exact ih st
      | some s =>
          have heq : procRemoved st d (c :: rest) =
              procRemoved (dictErase st.1 c, st.2 ++ [⟨c, s, d⟩]) d rest := by
            simp only [procRemoved, List.foldl_cons, hg]
          rw [heq]
          obtain ⟨ih1, ih2⟩ := ih (dictErase st.1 c, st.2 ++ [⟨c, s, d⟩])
          constructor
          · intro cs h
            exact dictErase_subset (ih1 cs h)
          · intro p h
            rcases ih2 p h with h' | ⟨h1, h2⟩
            · rcases List.mem_append.mp h' with h'' | h''
              · exact Or.inl h''
              · simp only [List.mem_singleton] at h''
                subst h''
                exact Or.inr ⟨rfl, dictGet_mem hg⟩
            · exact Or.inr ⟨h1, dictErase_subset h2⟩

/-- Helper: active entries after one event come from the incoming dict
or carry the event's date. -/
theorem stepEvent_active {st : AList × List Period} {e : MEvent}
    {cs : Nat × Nat} (h : cs ∈ (stepEvent st e).1) :
    cs ∈ st.1 ∨ cs.2 = e.date := by
  unfold stepEvent at h
  have h1 := (procRemoved_spec e.removed
    (procAdded st.1 e.date e.added, st.2) e.date).1 cs h
  exact procAdded_mem h1

/-- Helper: periods after one event either pre-existed or are closed at
the event's date with a start from the incoming dict or equal to the
event's date. -/
theorem stepEvent_periods {st : AList × List Period} {e : MEvent}
    {p : Period} (h : p ∈ (stepEvent st e).2) :
    p ∈ st.2 ∨ (p.stop = e.date ∧ ((p.code, p.start) ∈ st.1 ∨ p.start = e.date)) := by
  unfold stepEvent at h
  rcases (procRemoved_spec e.removed
      (procAdded st.1 e.date e.added, st.2) e.date).2 p h with h' | ⟨h1, h2⟩
  · exact Or.inl h'
  · exact Or.inr ⟨h1, procAdded_mem h2⟩

/-- Helper: the main fold invariant of `build_ticker_periods` over a
date-sorted event list: every emitted period satisfies
`start ≤ stop`, and every still-active entry's start is bounded by the
last event's date. -/
theorem foldEvents_inv (l : List MEvent) (hl : l.Pairwise dateLe) :
    ∀ A R,
      (∀ cs ∈ A, ∀ e ∈ l, cs.2 ≤ e.date) →
      (∀ p ∈ R, p.start ≤ p.stop) →
      (∀ p ∈ (l.foldl stepEvent (A, R)).2, p.start ≤ p.stop) ∧
      (∀ lastEv, l.getLast? = some lastEv →
        ∀ cs ∈ (l.foldl stepEvent (A, R)).1, cs.2 ≤ lastEv.date) := by
  induction l with
  | nil =>
      intro A R _ hR
      exact ⟨hR, fun lastEv h => by simp at h⟩
  | cons e rest ih =>
      intro A R hA hR
      have hhead : ∀ e' ∈ rest, dateLe e e' := (List.pairwise_cons.mp hl).1
      have hrest : rest.Pairwise dateLe := (List.pairwise_cons.mp hl).2
      have hfold : (e :: rest).foldl stepEvent (A, R) =
          rest.foldl stepEvent (stepEvent (A, R) e) := rfl
      have hA1 : ∀ cs ∈ (stepEvent (A, R) e).1, ∀ e' ∈ rest, cs.2 ≤ e'.date := by
        intro cs h e' he'
        rcases stepEvent_active h with h' | h'
        · exact hA cs h' e' (List.mem_cons_of_mem e he')
        · exact h' ▸ hhead e' he'
      have hR1 : ∀ p ∈ (stepEvent (A, R) e).2, p.start ≤ p.stop := by
        intro p h
        rcases stepEvent_periods h with h' | ⟨h1, h2⟩
        · exact hR p h'
        · rcases h2 with h2 | h2
          · exact h1 ▸ hA (p.code, p.start) h2 e (List.mem_cons_self e rest)
          · exact h1 ▸ h2.le
      have key := ih hrest (stepEvent (A, R) e).1 (stepEvent (A, R) e).2 hA1 hR1
      cases rest with
      | nil =>
          refine ⟨by simpa [hfold] using hR1, ?_⟩
          intro lastEv hlast cs hcs
          simp only [List.getLast?_singleton] at hlast
          obtain rfl : e = lastEv := by injection hlast
          rcases stepEvent_active (by simpa [hfold] using hcs) with h' | h'
          · exact hA cs h' e (List.mem_cons_self e [])
          · exact h'.le
      | cons e2 rest2 =>
          refine ⟨by simpa [hfold] using key.1, ?_⟩
          intro lastEv hlast cs hcs
          have hlast' : (e2 :: rest2).getLast? = some lastEv := by
            rw [← hlast]
            exact List.getLast?_cons_cons.symm
          exact key.2 lastEv hlast' cs (by simpa [hfold] using hcs)

end C3dev

section C3thm
open Krx

/-- C3: for every event table ordered by strictly increasing date,
every ActivePeriod row emitted by `build_ticker_periods` satisfies
`start <= end` — both rows closed by a removal event and rows closed
at the final event date for still-active entities. -/
theorem C3_main (events : List MEvent)
    (_hinc : List.Chain' (· < ·) (events.map MEvent.date))
    (ps : List Period) (hb : build_ticker_periods events = some ps) :
    ∀ p ∈ ps, p.start ≤ p.stop := by
  intro p hp
  have hsorted : (sortByDate events).Pairwise dateLe :=
    List.sorted_insertionSort dateLe events
  simp only [build_ticker_periods] at hb
  cases hlast : (sortByDate events).getLast? with
  | none =>
      rw [hlast] at hb
      exact absurd hb (by simp)
  | some lastEv =>
      rw [hlast] at hb
      dsimp only at hb
      have key := foldEvents_inv (sortByDate events) hsorted [] []
        (by intro cs h; cases h) (by intro q h; cases h)
      set st := (sortByDate events).foldl stepEvent ([], []) with hst
      by_cases hres :
          (st.2 ++ st.1.map fun cs => (⟨cs.1, cs.2, lastEv.date⟩ : Period)) = []
      · rw [if_pos hres] at hb
        cases hb
      · rw [if_neg hres] at hb
        have hps : ps = sortPeriods
            (st.2 ++ st.1.map fun cs => (⟨cs.1, cs.2, lastEv.date⟩ : Period)) :=
          (Option.some.injEq _ _).mp hb |>.symm
        have hp' : p ∈ st.2 ++ st.1.map
            (fun cs => (⟨cs.1, cs.2, lastEv.date⟩ : Period)) := by
          have := hps ▸ hp
          exact (List.mem_insertionSort periodLe).mp this
        rcases List.mem_append.mp hp' with h' | h'
        · exact key.1 p h'
        · obtain ⟨cs, hcs, rfl⟩ := List.mem_map.mp h'
          exact key.2 lastEv hlast cs hcs

/-- C3, witness: `C3_main` on a one-entity add/remove sequence. -/
theorem C3_witness :
    List.Chain' (· < ·)
      (([⟨1, [10], [10], []⟩, ⟨5, [], [], [10]⟩] : List MEvent).map MEvent.date) ∧
    build_ticker_periods [⟨1, [10], [10], []⟩, ⟨5, [], [], [10]⟩] =
      some [⟨10, 1, 5⟩] ∧
    (⟨10, 1, 5⟩ : Period).start ≤ (⟨10, 1, 5⟩ : Period).stop := by
  have hchain : List.Chain' (· < ·)
      (([⟨1, [10], [10], []⟩, ⟨5, [], [], [10]⟩] : List MEvent).map MEvent.date) := by
    simp [List.chain'_cons]
  refine ⟨hchain, by decide, ?_⟩
  exact C3_main [⟨1, [10], [10], []⟩, ⟨5, [], [], [10]⟩] hchain
    [⟨10, 1, 5⟩] (by decide) ⟨10, 1, 5⟩ (by decide)

end C3thm

section C6dev
open Krx

/-- Helper: the code list of a compressed table is `codesOf` of the
input. -/
theorem compress_map_code (ps : List Period) :
    (compress_periods ps).map Period.code = codesOf ps := by
  unfold compress_periods
  rw [List.map_map]
  have h : (Period.code ∘ fun c =>
      (⟨c, listMin ((ps.filter (fun p => p.code = c)).map Period.start),
          listMax ((ps.filter (fun p => p.code = c)).map Period.stop)⟩ :
        Period)) = id := rfl
  rw [h, List.map_id]

/-- Helper: `codesOf` is duplicate-free. -/
theorem codesOf_nodup (ps : List Period) : (codesOf ps).Nodup := by
  unfold codesOf
  exact (List.perm_insertionSort _ _).nodup_iff.mpr (List.nodup_dedup _)

/-- Helper: `codesOf` of a compressed table equals `codesOf` of the
input table. -/
theorem codesOf_compress (ps : List Period) :
    codesOf (compress_periods ps) = codesOf ps := by
  have h1 : codesOf (compress_periods ps) =
      ((codesOf ps).dedup).insertionSort (· ≤ ·) := by
    unfold codesOf
    rw [show (compress_periods ps).map Period.code = codesOf ps from
      compress_map_code ps]
    rfl
  rw [h1, List.dedup_eq_self.mpr (codesOf_nodup ps),
    List.Sorted.insertionSort_eq]
  unfold codesOf
  exact List.sorted_insertionSort _ _

/-- Helper: filtering a duplicate-free list for one of its members
gives the singleton. -/
theorem nodup_filter_eq_single {l : List Nat} (h : l.Nodup) {c : Nat}
    (hc : c ∈ l) : l.filter (fun x => x = c) = [c] := by
  induction l with
  | nil => cases hc
  | cons x xs ih =>
      by_cases hx : x = c
      · subst hx
        have hxs : xs.filter (fun y => y = x) = [] := by
          refine List.filter_eq_nil_iff.mpr ?_
          intro a ha
          simp only [decide_eq_true_eq]
          intro heq
          exact (List.nodup_cons.mp h).1 (heq ▸ ha)
        simp [List.filter_cons, hxs]
      · have hc2 : c ∈ xs := by
          rcases List.mem_cons.mp hc with h2 | h2
          · exact absurd h2.symm hx
          · exact h2
        have hrec := ih (List.nodup_cons.mp h).2 hc2
        simp [List.filter_cons, hx, hrec]

/-- C6: period compression is idempotent — compressing an
already-compressed table returns the same table. -/
theorem C6_main (ps : List Period) :
    compress_periods (compress_periods ps) = compress_periods ps := by
  have hfil : ∀ c ∈ codesOf ps,
      (compress_periods ps).filter (fun p => p.code = c) =
        [⟨c, listMin ((ps.filter (fun p => p.code = c)).map Period.start),
            listMax ((ps.filter (fun p => p.code = c)).map Period.stop)⟩] := by
    intro c hc
    unfold compress_periods
    rw [List.filter_map]
    have h2 : (codesOf ps).filter
        ((fun p : Period => decide (p.code = c)) ∘
          (fun d => (⟨d, listMin ((ps.filter (fun p => p.code = d)).map Period.start),
            listMax ((ps.filter (fun p => p.code = d)).map Period.stop)⟩ : Period))) =
        (codesOf ps).filter (fun x => x = c) := rfl
    rw [h2, nodup_filter_eq_single (codesOf_nodup ps) hc]
    rfl
  have h1 : compress_periods (compress_periods ps) =
      (codesOf (compress_periods ps)).map (fun c =>
        (⟨c, listMin (((compress_periods ps).filter
              (fun p => p.code = c)).map Period.start),
            listMax (((compress_periods ps).filter
              (fun p => p.code = c)).map Period.stop)⟩ : Period)) := rfl
  rw [h1, codesOf_compress]
  conv_rhs => rw [compress_periods]
  refine List.map_congr_left ?_
  intro c hc
  rw [hfil c hc]
  rfl

end C6dev

section C7dev
open Krx

/-- Helper: an or-accumulating fold is `any`. -/
theorem foldl_or_eq_any {α : Type} (l : List α) (f : α → Bool) (b : Bool) :
    l.foldl (fun acc x => acc || f x) b = (b || l.any f) := by
  induction l generalizing b with
  | nil => simp
  | cons x xs ih =>
      simp only [List.foldl_cons, List.any_cons, ih, Bool.or_assoc]

/-- Helper: the accumulated mask of `get_combined_ohlcv` holds exactly
when the date lies in one of the entity's windows. -/
theorem inPeriods_iff (ps : List Period) (c d : Nat) :
    inPeriods ps c d = true ↔
      ∃ p ∈ ps, p.code = c ∧ p.start ≤ d ∧ d ≤ p.stop := by
  unfold inPeriods
  rw [foldl_or_eq_any, Bool.false_or, List.any_eq_true]
  constructor
  · rintro ⟨p, hp, hcond⟩
    obtain ⟨hmem, hcode⟩ := List.mem_filter.mp hp
    simp only [Bool.and_eq_true, decide_eq_true_eq] at hcond hcode
    exact ⟨p, hmem, hcode, hcond⟩
  · rintro ⟨p, hp, hcode, h1, h2⟩
    refine ⟨p, List.mem_filter.mpr ⟨hp, by simp [hcode]⟩, by simp [h1, h2]⟩

/-- C7: a `(date, code)` row appears in the combined OHLCV output iff
it was retrieved by the per-compressed-period fetch and its date lies
in at least one of that entity's pre-compression validity windows
(inclusive on both ends, union over windows); every fetched row lying
in no window is dropped. -/
theorem C7_main (fetch : Nat → Nat → Nat → List Nat) (ps : List Period)
    (d c : Nat) :
    (d, c) ∈ get_combined_ohlcv fetch ps ↔
      ((∃ row ∈ compress_periods ps,
          row.code = c ∧ d ∈ fetch c row.start row.stop) ∧
        ∃ p ∈ ps, p.code = c ∧ p.start ≤ d ∧ d ≤ p.stop) := by
  unfold get_combined_ohlcv
  by_cases hps : ps = []
  · subst hps
    simp [compress_periods, codesOf]
  · rw [if_neg hps, List.mem_insertionSort, List.mem_flatMap]
    constructor
    · rintro ⟨row, hrow, hmem⟩
      obtain ⟨d', hd', heq⟩ := List.mem_map.mp hmem
      obtain ⟨hdc, hcc⟩ := Prod.mk.injEq .. ▸ heq
      subst hdc
      subst hcc
      obtain ⟨hfetch, hmask⟩ := List.mem_filter.mp hd'
      exact ⟨⟨row, hrow, rfl, hfetch⟩, (inPeriods_iff ps row.code d').mp hmask⟩
    · rintro ⟨⟨row, hrow, hcode, hfetch⟩, hwin⟩
      refine ⟨row, hrow, List.mem_map.mpr ⟨d, ?_, by rw [hcode]⟩⟩
      refine List.mem_filter.mpr ⟨by rw [hcode]; exact hfetch, ?_⟩
      exact (inPeriods_iff ps row.code d).mpr (by rw [hcode]; exact hwin)

end C7dev

section C4dev
open Krx

/-- Helper: one snapshot step only appends records dated by the
current query date. -/
theorem snapStep_records (fetch : Nat → Option (List Nat)) (st : SnapState)
    (d : Nat) : ∀ r ∈ (snapStep fetch st d).2, r ∈ st.2 ∨ r.date = d := by
  intro r hr
  unfold snapStep at hr
  cases hf : fetch d with
  | none => rw [hf] at hr; exact Or.inl hr
  | some cur =>
      rw [hf] at hr
      dsimp only at hr
      by_cases hc : cur = []
      · rw [if_pos hc] at hr
        exact Or.inl hr
      · rw [if_neg hc] at hr
        cases hp : st.1 with
        | none =>
            rw [hp] at hr
            dsimp only at hr
            rcases List.mem_append.mp hr with h | h
            · exact Or.inl h
            · simp only [List.mem_singleton] at h
              subst h
              exact Or.inr rfl
        | some p =>
            rw [hp] at hr
            dsimp only at hr
            by_cases he : setEq cur p = true
            · rw [if_pos he] at hr
              exact Or.inl hr
            · rw [if_neg he] at hr
              rcases List.mem_append.mp hr with h | h
              · exact Or.inl h
              · simp only [List.mem_singleton] at h
                subst h
                exact Or.inr rfl

/-- Helper: every record produced by the snapshot loop is dated by one
of the queried dates. -/
theorem foldSnap_record_dates (fetch : Nat → Option (List Nat))
    (dates : List Nat) :
    ∀ st : SnapState, ∀ r ∈ (dates.foldl (snapStep fetch) st).2,
      r ∈ st.2 ∨ r.date ∈ dates := by
  induction dates with
  | nil => intro st r hr; exact Or.inl hr
  | cons d rest ih =>
      intro st r hr
      rw [List.foldl_cons] at hr
      rcases ih (snapStep fetch st d) r hr with h | h
      · rcases snapStep_records fetch st d r h with h' | h'
        · exact Or.inl h'
        · exact Or.inr (h' ▸ List.mem_cons_self d rest)
      · exact Or.inr (List.mem_cons_of_mem d h)

/-- Helper: in a date-sorted event list the last element carries the
maximal date. -/
theorem sorted_getLast_max :
    ∀ l : List MEvent, l.Pairwise dateLe →
      ∀ lastEv, l.getLast? = some lastEv → ∀ e ∈ l, e.date ≤ lastEv.date := by
  intro l
  induction l with
  | nil => intro _ lastEv h; cases h
  | cons x xs ih =>
      intro hp lastEv hlast e he
      cases xs with
      | nil =>
          simp only [List.getLast?_singleton] at hlast
          obtain rfl : x = lastEv := by injection hlast
          rcases List.mem_singleton.mp he with rfl
          exact Nat.le_refl _
      | cons y ys =>
          rw [List.getLast?_cons_cons] at hlast
          have hmem : lastEv ∈ y :: ys := List.mem_of_mem_getLast? hlast
          rcases List.mem_cons.mp he with rfl | he'
          · exact (List.pairwise_cons.mp hp).1 lastEv hmem
          · exact ih (List.pairwise_cons.mp hp).2 lastEv hlast e he'

end C4dev

section C4main
open Krx

/-- Helper: the trailing-append equation of `get_index_deposit` when
the last raw record is not dated at the requested end date. -/
theorem addTrailing_spec (st : SnapState) (endD : Nat)
    (lastRec : MEvent) (hlast : st.2.getLast? = some lastRec)
    (hne : lastRec.date ≠ endD) :
    addTrailing st endD =
      st.2 ++ [⟨endD, sortedSet (st.1.getD []), [], []⟩] := by
  unfold addTrailing
  rw [hlast]
  dsimp only
  rw [if_neg hne]

/-- Helper: a nonempty trailing-adjusted record list contains a record
dated at the requested end date. -/
theorem addTrailing_has_end (st : SnapState) (endD : Nat)
    (h : addTrailing st endD ≠ []) :
    ∃ e ∈ addTrailing st endD, e.date = endD := by
  cases hlast : st.2.getLast? with
  | none =>
      exfalso
      apply h
      unfold addTrailing
      rw [hlast]
      exact List.getLast?_eq_none_iff.mp hlast
  | some lastRec =>
      by_cases hd : lastRec.date = endD
      · refine ⟨lastRec, ?_, hd⟩
        unfold addTrailing
        rw [hlast]
        dsimp only
        rw [if_pos hd]
        exact List.mem_of_mem_getLast? hlast
      · refine ⟨⟨endD, sortedSet (st.1.getD []), [], []⟩, ?_, rfl⟩
        unfold addTrailing
        rw [hlast]
        dsimp only
        rw [if_neg hd]
        exact List.mem_append_right _ (List.mem_singleton.mpr rfl)

/-- Helper: the trailing append preserves an upper bound on record
dates when the bound is the end date itself. -/
theorem addTrailing_dates_le (st : SnapState) (endD : Nat)
    (hrecs : ∀ r ∈ st.2, r.date ≤ endD) :
    ∀ r ∈ addTrailing st endD, r.date ≤ endD := by
  intro r hr
  unfold addTrailing at hr
  cases hlast : st.2.getLast? with
  | none =>
      rw [hlast] at hr
      exact hrecs r hr
  | some lastRec =>
      rw [hlast] at hr
      dsimp only at hr
      by_cases hd : lastRec.date = endD
      · rw [if_pos hd] at hr
        exact hrecs r hr
      · rw [if_neg hd] at hr
        rcases List.mem_append.mp hr with h | h
        · exact hrecs r h
        · simp only [List.mem_singleton] at h
          subst h
          exact Nat.le_refl _

/-- Helper: under `get_index_deposit`, every entity still active after
the final (trailing-adjusted) event gets a period closed exactly at
the requested end date. -/
theorem stillActive_closes_at_end (fetch : Nat → Option (List Nat))
    (dates : List Nat) (endD : Nat) (hle : ∀ d ∈ dates, d ≤ endD) :
    ∀ ps, get_index_deposit fetch dates endD = some ps →
      ∀ cs ∈ ((sortByDate (addTrailing (rawState fetch dates) endD)).foldl
          stepEvent ([], [])).1,
        (⟨cs.1, cs.2, endD⟩ : Period) ∈ ps := by
  intro ps hps cs hcs
  by_cases hempty : addTrailing (rawState fetch dates) endD = []
  · rw [hempty] at hcs
    simp [sortByDate] at hcs
  · unfold get_index_deposit at hps
    rw [if_neg hempty] at hps
    have hsorted : (sortByDate (addTrailing (rawState fetch dates) endD)).Pairwise
        dateLe := List.sorted_insertionSort dateLe _
    cases hlast : (sortByDate (addTrailing (rawState fetch dates) endD)).getLast? with
    | none =>
        rw [List.getLast?_eq_none_iff] at hlast
        have hperm := List.perm_insertionSort dateLe
          (addTrailing (rawState fetch dates) endD)
        rw [sortByDate] at hlast
        rw [hlast] at hperm
        exact absurd hperm.symm.eq_nil hempty
    | some lastEv =>
        have hrecdates : ∀ r ∈ addTrailing (rawState fetch dates) endD,
            r.date ≤ endD := by
          apply addTrailing_dates_le
          intro r hr
          rcases foldSnap_record_dates fetch dates (none, []) r hr with h | h
          · cases h
          · exact hle _ h
        have hmax := sorted_getLast_max _ hsorted lastEv hlast
        have hlastmem := List.mem_of_mem_getLast? hlast
        have h1 : lastEv.date ≤ endD :=
          hrecdates lastEv ((List.mem_insertionSort dateLe).mp hlastmem)
        obtain ⟨e0, he0, he0d⟩ :=
          addTrailing_has_end (rawState fetch dates) endD hempty
        have h2 : endD ≤ lastEv.date :=
          he0d ▸ hmax e0 ((List.mem_insertionSort dateLe).mpr he0)
        have hdate : lastEv.date = endD := Nat.le_antisymm h1 h2
        simp only [build_ticker_periods] at hps
        rw [hlast] at hps
        dsimp only at hps
        have hmem : (⟨cs.1, cs.2, lastEv.date⟩ : Period) ∈
            ((sortByDate (addTrailing (rawState fetch dates) endD)).foldl
                stepEvent ([], [])).2 ++
              ((sortByDate (addTrailing (rawState fetch dates) endD)).foldl
                stepEvent ([], [])).1.map
                (fun c => (⟨c.1, c.2, lastEv.date⟩ : Period)) :=
          List.mem_append_right _ (List.mem_map.mpr ⟨cs, hcs, rfl⟩)
        by_cases hres : (((sortByDate (addTrailing (rawState fetch dates) endD)).foldl
              stepEvent ([], [])).2 ++
            ((sortByDate (addTrailing (rawState fetch dates) endD)).foldl
              stepEvent ([], [])).1.map
              (fun c => (⟨c.1, c.2, lastEv.date⟩ : Period))) = []
        · rw [hres] at hmem
          cases hmem
        · rw [if_neg hres] at hps
          have hpse : ps = sortPeriods
              (((sortByDate (addTrailing (rawState fetch dates) endD)).foldl
                  stepEvent ([], [])).2 ++
                ((sortByDate (addTrailing (rawState fetch dates) endD)).foldl
                  stepEvent ([], [])).1.map
                  (fun c => (⟨c.1, c.2, lastEv.date⟩ : Period))) :=
            ((Option.some.injEq _ _).mp hps).symm
        
          rw [hpse, sortPeriods, List.mem_insertionSort]
          nth_rewrite 3 [← hdate]
          exact hmem

end C4main

section C4claim
open Krx

/-- C4: when the final raw record's date differs from the requested
end date, `get_index_deposit` appends exactly one trailing event dated
at the end date carrying the last known full codes set with empty
`added`/`removed`; consequently every entity still active after the
final event receives a period closed exactly at the requested end
date; and the spec's three-day example (`{A,B}`, `{A,B}`, `{A}` with
end = day 3) yields `[(A, 1, 3), (B, 1, 3)]`. -/
theorem C4_main (fetch : Nat → Option (List Nat)) (dates : List Nat)
    (endD : Nat) (hle : ∀ d ∈ dates, d ≤ endD) :
    (∀ lastRec, (rawState fetch dates).2.getLast? = some lastRec →
        lastRec.date ≠ endD →
        addTrailing (rawState fetch dates) endD =
          (rawState fetch dates).2 ++
            [⟨endD, sortedSet ((rawState fetch dates).1.getD []), [], []⟩]) ∧
    (∀ ps, get_index_deposit fetch dates endD = some ps →
      ∀ cs ∈ ((sortByDate (addTrailing (rawState fetch dates) endD)).foldl
          stepEvent ([], [])).1,
        (⟨cs.1, cs.2, endD⟩ : Period) ∈ ps) ∧
    get_index_deposit exFetch [1, 2, 3] 3 = some [⟨1, 1, 3⟩, ⟨2, 1, 3⟩] :=
  ⟨fun lastRec h1 h2 => addTrailing_spec _ _ lastRec h1 h2,
    stillActive_closes_at_end fetch dates endD hle, by decide⟩

/-- C4, witness: `C4_main` on the example oracle with requested end
day 4 (a trailing event is appended and `A`'s period closes at 4). -/
theorem C4_witness :
    (∀ d ∈ [1, 2, 3], d ≤ 4) ∧
    get_index_deposit exFetch [1, 2, 3] 4 = some [⟨1, 1, 4⟩, ⟨2, 1, 3⟩] ∧
    (1, 1) ∈ ((sortByDate (addTrailing (rawState exFetch [1, 2, 3]) 4)).foldl
      stepEvent ([], [])).1 ∧
    (⟨1, 1, 4⟩ : Period) ∈ [(⟨1, 1, 4⟩ : Period), ⟨2, 1, 3⟩] := by
  refine ⟨by decide, by decide, by decide, ?_⟩
  exact (C4_main exFetch [1, 2, 3] 4 (by decide)).2.1
    [⟨1, 1, 4⟩, ⟨2, 1, 3⟩] (by decide) (1, 1) (by decide)

end C4claim

section C10dev
open ProcessData

/-- Helper: assigning a fresh column appends it at the end of the
frame. -/
theorem setCol_fresh (df : DF) (name : String) (col : List RV)
    (h : name ∉ df.cols.map Prod.fst) :
    setCol df name col = ⟨df.dateCol, df.cols ++ [(name, col)]⟩ := by
  unfold setCol
  rw [if_neg]
  intro hany
  obtain ⟨p, hp, hpn⟩ := List.any_eq_true.mp hany
  rw [decide_eq_true_eq] at hpn
  exact h (List.mem_map.mpr ⟨p, hp, hpn⟩)

/-- Helper: `expNames` over a cons. -/
theorem expNames_cons (name : String) (f : DF → List RV)
    (rest : List (String × (DF → List RV))) (zscore : Bool) :
    expNames ((name, f) :: rest) zscore =
      (if zscore then [name, name ++ "_Z"] else [name]) ++
        expNames rest zscore := by
  unfold expNames
  rw [List.flatMap_cons]

/-- Helper: the factor loop appends exactly the expected columns in
order, never touching the date column or the pre-existing columns,
casts every appended column, and accumulates exactly the expected
names. -/
theorem cfLoop_spec (cast : RV → RV) (zscore : Bool) :
    ∀ (factors : List (String × (DF → List RV))) (df : DF)
      (names0 : List String),
      (expNames factors zscore).Nodup →
      (∀ n ∈ expNames factors zscore, n ∉ df.cols.map Prod.fst) →
      ∃ appended : List (String × List RV),
        (cfLoop cast zscore factors (df, names0)).1.dateCol = df.dateCol ∧
        (cfLoop cast zscore factors (df, names0)).1.cols =
          df.cols ++ appended ∧
        appended.map Prod.fst = expNames factors zscore ∧
        (cfLoop cast zscore factors (df, names0)).2 =
          names0 ++ expNames factors zscore ∧
        (∀ pr ∈ appended, ∃ src : List RV, pr.2 = List.map cast src) := by
  intro factors
  induction factors with
  | nil =>
      intro df names0 _ _
      exact ⟨[], rfl, (List.append_nil _).symm, rfl,
        (List.append_nil _).symm, fun pr hpr => absurd hpr (List.not_mem_nil pr)⟩
  | cons nf rest ih =>
      intro df names0 hnodup hfresh
      obtain ⟨name, f⟩ := nf
      rw [expNames_cons] at hnodup hfresh
      have hrest_nodup := hnodup.of_append_right
      have hdisj := List.disjoint_of_nodup_append hnodup
      cases zscore with
      | false =>
          rw [if_neg (by simp)] at hnodup hfresh hdisj
          have hn : name ∉ df.cols.map Prod.fst :=
            hfresh name (List.mem_append_left _ (by simp))
          have hstep : cfLoop cast false ((name, f) :: rest) (df, names0) =
              cfLoop cast false rest
                (setCol df name ((f df).map cast), names0 ++ [name]) := rfl
          rw [hstep, setCol_fresh df name ((f df).map cast) hn]
          have hrest_fresh : ∀ n ∈ expNames rest false,
              n ∉ ((⟨df.dateCol,
                df.cols ++ [(name, (f df).map cast)]⟩ : DF)).cols.map Prod.fst := by
            intro n hn2
            rw [List.map_append]
            intro hmem
            rcases List.mem_append.mp hmem with h | h
            · exact hfresh n (List.mem_append_right _ hn2) h
            · simp only [List.map_cons, List.map_nil, List.mem_singleton] at h
              exact hdisj (List.mem_singleton.mpr h) hn2
          obtain ⟨app, h1, h2, h3, h4, h5⟩ := ih
            ⟨df.dateCol, df.cols ++ [(name, (f df).map cast)]⟩
            (names0 ++ [name]) hrest_nodup hrest_fresh
          refine ⟨(name, (f df).map cast) :: app, h1, ?_, ?_, ?_, ?_⟩
          · rw [h2, List.append_assoc]
            rfl
          · rw [List.map_cons, h3, expNames_cons]
            simp
          · rw [h4, List.append_assoc]
            rfl
          · intro pr hpr
            rcases List.mem_cons.mp hpr with rfl | hpr'
            · exact ⟨f df, rfl⟩
            · exact h5 pr hpr'
      | true =>
          rw [if_pos rfl] at hnodup hfresh hdisj
          have hn : name ∉ df.cols.map Prod.fst :=
            hfresh name (List.mem_append_left _ (by simp))
          have hz : (name ++ "_Z") ∉ df.cols.map Prod.fst :=
            hfresh (name ++ "_Z") (List.mem_append_left _ (by simp))
          have hnz : name ≠ name ++ "_Z" := by
            have hl := hnodup.of_append_left
            have := (List.nodup_cons.mp hl).1
            simp only [List.mem_singleton] at this
            exact this
          have hstep : cfLoop cast true ((name, f) :: rest) (df, names0) =
              cfLoop cast true rest
                (setCol (setCol df name ((f df).map cast)) (name ++ "_Z")
                  ((cs_zscore (setCol df name ((f df).map cast))
                    name).map cast),
                  names0 ++ [name, name ++ "_Z"]) := rfl
          rw [hstep, setCol_fresh df name ((f df).map cast) hn]
          have hz1 : (name ++ "_Z") ∉
              ((⟨df.dateCol, df.cols ++ [(name, (f df).map cast)]⟩ :
                DF)).cols.map Prod.fst := by
            rw [List.map_append]
            intro hmem
            rcases List.mem_append.mp hmem with h | h
            · exact hz h
            · simp only [List.map_cons, List.map_nil, List.mem_singleton] at h
              exact hnz h.symm
          rw [setCol_fresh _ (name ++ "_Z") _ hz1]
          have hrest_fresh : ∀ n ∈ expNames rest true,
              n ∉ ((⟨df.dateCol,
                (df.cols ++ [(name, (f df).map cast)]) ++
                  [(name ++ "_Z",
                    (cs_zscore ⟨df.dateCol,
                      df.cols ++ [(name, (f df).map cast)]⟩ name).map cast)]⟩ :
                DF)).cols.map Prod.fst := by
            intro n hn2
            simp only [List.map_append, List.map_cons, List.map_nil]
            intro hmem
            rcases List.mem_append.mp hmem with h | h
            · rcases List.mem_append.mp h with h' | h'
              · exact hfresh n (List.mem_append_right _ hn2) h'
              · simp only [List.mem_singleton] at h'
                exact hdisj (by simp [h']) hn2
            · simp only [List.mem_singleton] at h
              exact hdisj (by simp [h]) hn2
          obtain ⟨app, h1, h2, h3, h4, h5⟩ := ih
            ⟨df.dateCol,
              (df.cols ++ [(name, (f df).map cast)]) ++
                [(name ++ "_Z",
                  (cs_zscore ⟨df.dateCol,
                    df.cols ++ [(name, (f df).map cast)]⟩ name).map cast)]⟩
            (names0 ++ [name, name ++ "_Z"]) hrest_nodup hrest_fresh
          refine ⟨(name, (f df).map cast) ::
            (name ++ "_Z",
              (cs_zscore ⟨df.dateCol,
                df.cols ++ [(name, (f df).map cast)]⟩ name).map cast) ::
            app, h1, ?_, ?_, ?_, ?_⟩
          · rw [h2]
            simp [List.append_assoc]
          · rw [List.map_cons, List.map_cons, h3]
            rfl
          · rw [h4, List.append_assoc]
            rfl
          · intro pr hpr
            rcases List.mem_cons.mp hpr with rfl | hpr'
            · exact ⟨f df, rfl⟩
            · rcases List.mem_cons.mp hpr' with rfl | hpr''
              · exact ⟨cs_zscore ⟨df.dateCol,
                  df.cols ++ [(name, (f df).map cast)]⟩ name, rfl⟩
              · exact h5 pr hpr''

end C10dev

section C10claim
open ProcessData

/-- Helper: selecting freshly appended, duplicate-free columns by name
returns exactly those columns. -/
theorem map_getCol (dc : List Nat) :
    ∀ (appended pre : List (String × List RV)),
      (appended.map Prod.fst).Nodup →
      (∀ n ∈ appended.map Prod.fst, n ∉ pre.map Prod.fst) →
      (appended.map Prod.fst).map
        (fun n => (n, getCol ⟨dc, pre ++ appended⟩ n)) = appended := by
  intro appended
  induction appended with
  | nil => intro pre _ _; rfl
  | cons mc rest ih =>
      intro pre hnodup hfresh
      obtain ⟨m, col⟩ := mc
      have hfind_pre : pre.find? (fun p => p.1 = m) = none := by
        rw [List.find?_eq_none]
        intro x hx
        simp only [decide_eq_true_eq]
        intro heq
        exact hfresh m (by simp) (List.mem_map.mpr ⟨x, hx, heq⟩)
      have hhead : getCol ⟨dc, pre ++ (m, col) :: rest⟩ m = col := by
        unfold getCol
        rw [List.find?_append, hfind_pre]
        simp [List.find?_cons]
      simp only [List.map_cons, List.map_map]
      have htail : (rest.map Prod.fst).map
          (fun n => (n, getCol ⟨dc, (pre ++ [(m, col)]) ++ rest⟩ n)) = rest := by
        apply ih
        · exact (List.nodup_cons.mp (by simpa using hnodup)).2
        · intro n hn
          rw [List.map_append]
          intro hmem
          rcases List.mem_append.mp hmem with h | h
          · exact hfresh n (by simp [hn]) h
          · simp only [List.map_cons, List.map_nil, List.mem_singleton] at h
            have hm : m ∉ rest.map Prod.fst :=
              (List.nodup_cons.mp (by simpa using hnodup)).1
            exact hm (h ▸ hn)
      have hre : pre ++ (m, col) :: rest = (pre ++ [(m, col)]) ++ rest := by
        simp
      rw [show ((fun n => (n, getCol ⟨dc, pre ++ (m, col) :: rest⟩ n)) ∘ Prod.fst)
        = (fun n => (n, getCol ⟨dc, pre ++ (m, col) :: rest⟩ n)) ∘ Prod.fst from rfl]
      rw [List.comp_map]
      rw [hhead]
      rw [hre, htail]

/-- C10: `compute_factors` mutates the caller's frame in place — after
the call the frame holds its original date column and original value
columns unchanged, followed by exactly one appended column per factor
name (plus one `{name}_Z` column each when `zscore` is on), each
appended column being a cast (`astype("float32")`) image — while the
function's return value is restricted to exactly the appended
columns. -/
theorem C10_main (cast : RV → RV) (df : DF)
    (factor_dict : List (String × (DF → List RV))) (zscore : Bool)
    (hnodup : (expNames factor_dict zscore).Nodup)
    (hfresh : ∀ n ∈ expNames factor_dict zscore,
      n ∉ df.cols.map Prod.fst) :
    ∃ appended : List (String × List RV),
      (compute_factors cast df factor_dict zscore).1.dateCol = df.dateCol ∧
      (compute_factors cast df factor_dict zscore).1.cols =
        df.cols ++ appended ∧
      appended.map Prod.fst = expNames factor_dict zscore ∧
      (∀ pr ∈ appended, ∃ src : List RV, pr.2 = List.map cast src) ∧
      (compute_factors cast df factor_dict zscore).2 = appended ∧
      (∀ c ∈ df.cols.map Prod.fst,
        getCol (compute_factors cast df factor_dict zscore).1 c =
          getCol df c) := by
  obtain ⟨app, h1, h2, h3, h4, h5⟩ :=
    cfLoop_spec cast zscore factor_dict df [] hnodup hfresh
  have hdfeq : (cfLoop cast zscore factor_dict (df, [])).1 =
      ⟨df.dateCol, df.cols ++ app⟩ := by
    have hx : ∀ x : DF, x.dateCol = df.dateCol → x.cols = df.cols ++ app →
        x = ⟨df.dateCol, df.cols ++ app⟩ := by
      intro x hx1 hx2
      cases x
      simp_all
    exact hx _ h1 h2
  refine ⟨app, h1, h2, h3, h5, ?_, ?_⟩
  · show ((cfLoop cast zscore factor_dict (df, [])).2).map
      (fun n => (n, getCol (cfLoop cast zscore factor_dict (df, [])).1 n)) = app
    rw [h4, List.nil_append, hdfeq, ← h3]
    exact map_getCol df.dateCol app df.cols (h3 ▸ hnodup)
      (fun n hn => hfresh n (h3 ▸ hn))
  · intro c hc
    show getCol (cfLoop cast zscore factor_dict (df, [])).1 c = getCol df c
    rw [hdfeq]
    obtain ⟨x, hx, hxc⟩ := List.mem_map.mp hc
    have hsome : df.cols.find? (fun p => p.1 = c) |>.isSome := by
      rw [List.find?_isSome]
      exact ⟨x, hx, by simp [hxc]⟩
    obtain ⟨v, hv⟩ := Option.isSome_iff_exists.mp hsome
    unfold getCol
    rw [List.find?_append, hv]
    rfl

end C10claim

section C10wit
open ProcessData

/-- C10, witness: `C10_main` on a one-column frame with a single
identity-reading factor and `zscore` off. -/
theorem C10_witness :
    (expNames exFactors false).Nodup ∧
    (∀ n ∈ expNames exFactors false, n ∉ exDF.cols.map Prod.fst) ∧
    ∃ appended : List (String × List RV),
      (compute_factors id exDF exFactors false).1.dateCol = exDF.dateCol ∧
      (compute_factors id exDF exFactors false).1.cols =
        exDF.cols ++ appended ∧
      appended.map Prod.fst = expNames exFactors false ∧
      (∀ pr ∈ appended, ∃ src : List RV, pr.2 = List.map id src) ∧
      (compute_factors id exDF exFactors false).2 = appended ∧
      (∀ c ∈ exDF.cols.map Prod.fst,
        getCol (compute_factors id exDF exFactors false).1 c =
          getCol exDF c) :=
  ⟨by decide, by decide,
    C10_main id exDF exFactors false (by decide) (by decide)⟩

end C10wit
